import Mathlib

/-
Verification of the IndCad NOC matcher (matcher.py, embeddings.py, noc_db.py,
title_index.py, build_title_index.py) against its natural-language
specification.  The Python code is shallowly embedded: strings are Lean
strings, floating-point scores are modelled as exact rationals, and the one
irrational operation shared by numpy and faiss (the square root inside
L2 normalization) is a parameter of the environment.
-/

namespace IndCad

/-! ### Text normalization (matcher.normalize_text) -/

/-- Python `str.lower` restricted to ASCII, which is all the taxonomy uses. -/
def pyLower (c : Char) : Char :=
  if 'A' ≤ c ∧ c ≤ 'Z' then Char.ofNat (c.toNat + 32) else c

/-- The characters Python's `str.strip` and the regex class `\s` treat as
whitespace (ASCII part). -/
def isPyWS (c : Char) : Bool :=
  c == ' ' || c == '\t' || c == '\n' || c == '\r' || c == Char.ofNat 11 || c == Char.ofNat 12

/-- Python `str.strip()`: drop whitespace from both ends. -/
def stripWS (l : List Char) : List Char :=
  ((l.dropWhile isPyWS).reverse.dropWhile isPyWS).reverse

/-- The character class `[a-z0-9 ]` kept by `normalize_text`'s first regex. -/
def isKeep (c : Char) : Bool :=
  ('a' ≤ c && c ≤ 'z') || ('0' ≤ c && c ≤ '9') || c == ' '

/-- `re.sub(p+, ' ', s)`: replace every maximal run of characters satisfying
`p` by a single space.  The Bool flag records whether we are inside a run. -/
def replRunsGo (p : Char → Bool) : Bool → List Char → List Char
  | _, [] => []
  | inRun, c :: cs =>
    if p c then
      if inRun then replRunsGo p true cs else ' ' :: replRunsGo p true cs
    else c :: replRunsGo p false cs

def replRuns (p : Char → Bool) (l : List Char) : List Char :=
  replRunsGo p false l

/-- matcher.normalize_text: `if not s: return ""`, then
`s.lower().strip()`, `re.sub('[^a-z0-9 ]+', ' ', s)`, `re.sub('\s+', ' ', s)`. -/
def normalizeText (s : String) : String :=
  if s.data.isEmpty then ("")
  else String.mk (replRuns isPyWS (replRuns (fun c => !isKeep c) (stripWS (s.data.map pyLower))))

/-- Python `(title or "").strip()`. -/
def pyStrip (s : String) : String := String.mk (stripWS s.data)

/-- Python `str.isdigit()` (ASCII digits, which is all the NOC codes use). -/
def pyIsdigit (s : String) : Bool :=
  !s.data.isEmpty && s.data.all (fun c => '0' ≤ c && c ≤ '9')

/-! ### difflib.SequenceMatcher (string_similarity)

`SequenceMatcher(None, a, b).ratio()` with the default autojunk heuristic,
which is inert for the short strings involved here (it only activates when
`len(b) >= 200`), so the model omits it. -/

/-- Lookup in the `j2len` dictionary (default 0). -/
def lookupN (m : List (Nat × Nat)) (k : Nat) : Nat :=
  (((m.find? (fun p => p.1 == k))).map Prod.snd).getD 0

/-- One iteration (fixed `i`) of difflib's `find_longest_match` inner loop:
walk the positions `j` of `b` in `[blo, bhi)` where `b[j] == a[i]`, build the
new `j2len` table and update the best block, with Python's strict `>` so the
earliest maximal block wins. -/
def flmStep (a b : List Char) (blo bhi : Nat)
    (st : List (Nat × Nat) × (Nat × Nat × Nat)) (i : Nat) :
    List (Nat × Nat) × (Nat × Nat × Nat) :=
  let j2len := st.1
  let js := (List.range b.length).filter
    (fun j => decide (blo ≤ j) && decide (j < bhi) && (b.getD j ' ' == a.getD i ' '))
  js.foldl
    (fun st2 j =>
      let k := (if j = 0 then 0 else lookupN j2len (j - 1)) + 1
      let best := st2.2
      let best' := if k > best.2.2 then (i + 1 - k, j + 1 - k, k) else best
      ((j, k) :: st2.1, best'))
    ([], st.2)

/-- difflib `find_longest_match(alo, ahi, blo, bhi)` (no junk). -/
def findLongestMatch (a b : List Char) (alo ahi blo bhi : Nat) : Nat × Nat × Nat :=
  ((((List.range ahi).drop alo)).foldl (flmStep a b blo bhi) ([], (alo, blo, 0))).2

/-- Total size of the matching blocks of `get_matching_blocks`, written with
explicit fuel; the fuel `len a + len b + 1` strictly dominates the recursion
depth of the real algorithm, so it is never exhausted on actual inputs. -/
def matchingTotal (a b : List Char) : Nat → Nat → Nat → Nat → Nat → Nat
  | 0, _, _, _, _ => 0
  | fuel + 1, alo, ahi, blo, bhi =>
    let r := findLongestMatch a b alo ahi blo bhi
    if r.2.2 = 0 then 0
    else
      matchingTotal a b fuel alo r.1 blo r.2.1 + r.2.2 +
        matchingTotal a b fuel (r.1 + r.2.2) ahi (r.2.1 + r.2.2) bhi

/-- difflib `ratio()`: `2*M / (len(a)+len(b))`, or 1.0 when both are empty. -/
def smRatio (a b : List Char) : ℚ :=
  if a.length + b.length = 0 then 1
  else 2 * (matchingTotal a b (a.length + b.length + 1) 0 a.length 0 b.length : ℚ)
        / (a.length + b.length : ℚ)

/-- matcher.string_similarity. -/
def stringSimilarity (a b : String) : ℚ :=
  if a.data.isEmpty || b.data.isEmpty then 0 else smRatio a.data b.data

/-! ### Sorting

Python's `list.sort` is stable; it is modelled by a stable insertion sort.
`np.argsort` on the negated score vector is modelled the same way (NumPy's
default quicksort leaves the order of exact ties unspecified; the stable
model is one valid resolution, and the theorems that depend on tie order
carry an explicit distinct-scores hypothesis). -/

def insB (le : α → α → Bool) (x : α) : List α → List α
  | [] => [x]
  | y :: ys => if le x y then x :: y :: ys else y :: insB le x ys

def sortB (le : α → α → Bool) (l : List α) : List α :=
  l.foldl (fun acc x => insB le x acc) []

/-- Python `enumerate`. -/
def enumFrom (n : Nat) : List α → List (Nat × α)
  | [] => []
  | x :: xs => (n, x) :: enumFrom (n + 1) xs

/-- Python slicing `l[:k]` for an `int` bound: for `k ≥ 0` take the first
`k` elements, for `k < 0` drop the last `|k|` elements. -/
def pySlice (l : List α) (k : ℤ) : List α :=
  l.take (if 0 ≤ k then k.toNat else l.length - (-k).toNat)

/-! ### Data model (noc_db.load_noc_entries output, after setdefault) -/

structure Entry where
  noc : String
  title : String
  teer : String
  duties : String
  duties_short : String
  related_titles : List String
  keywords : List String
deriving DecidableEq

instance : Inhabited Entry := ⟨⟨"", "", "", "", "", [], []⟩⟩

/-- The result dictionaries built by match_by_title. -/
structure MatchResult where
  noc : String
  title : String
  teer : String
  score : ℚ
  duties_snippet : String
  related_titles : List String
deriving DecidableEq

/-- The result dictionaries built by match_query (no related_titles key). -/
structure QueryResult where
  noc : String
  title : String
  teer : String
  score : ℚ
  duties_snippet : String
deriving DecidableEq

/-- Gateway failures listed by the spec for the embedding service. -/
inductive GatewayError where
  | timeout
  | malformed
  | rateLimit
deriving DecidableEq

instance {ε α : Type} [DecidableEq ε] [DecidableEq α] : DecidableEq (Except ε α) := fun a b =>
  match a, b with
  | Except.error x, Except.error y => decidable_of_iff (x = y) (by simp)
  | Except.error _, Except.ok _ => Decidable.isFalse (by simp)
  | Except.ok _, Except.error _ => Decidable.isFalse (by simp)
  | Except.ok x, Except.ok y => decidable_of_iff (x = y) (by simp)

/-- The ambient state matcher.py runs against: the loaded taxonomy snapshot,
the optional title FAISS index (title_index.py: the stored vectors are the
L2-normalized title embeddings), the optional duty FAISS index together with
the JSON duty embeddings (embeddings.py), the embedding client, and the
square-root function both numpy and faiss use inside L2 normalization
(irrational in general, hence a parameter of the model). -/
structure Env where
  entries : List Entry
  titleIndex : Option (List (List ℚ))
  dutyIndex : Option (List (List ℚ))
  savedEmbeddings : List (List ℚ)
  embed : String → Except GatewayError (List ℚ)
  sqrt : ℚ → ℚ
  topKDefault : Nat

/-! ### Vectors -/

def dotQ (a b : List ℚ) : ℚ := (List.zipWith (fun x y => x * y) a b).sum

def sumSq (v : List ℚ) : ℚ := (v.map (fun x => x * x)).sum

/-- `v / np.linalg.norm(v)` and `faiss.normalize_L2`: divide by the square
root of the sum of squares (the shared `sq` models that square root). -/
def unitize (sq : ℚ → ℚ) (v : List ℚ) : List ℚ :=
  v.map (fun x => x / sq (sumSq v))

/-- Comparator of the spec-modelled index search: inner product descending,
ties by ascending index. -/
def leIdx (p q : Nat × ℚ) : Bool :=
  decide (q.2 < p.2 ∨ (p.2 = q.2 ∧ p.1 ≤ q.1))

/-- Comparator for the stable descending sorts taken from the source. -/
def leSnd (p q : Nat × ℚ) : Bool := decide (q.2 < p.2)

/-- Modelled from the spec: the search of a FAISS `IndexFlatIP` (an external
library; only its build inputs appear in the source).  Per spec 4.3 it
returns the `topK` closest stored vectors by inner product descending; ties
resolve by ascending index in this model.  Result entries are `(score, idx)`
pairs in the order FAISS reports them. -/
def faissIPSearch (stored : List (List ℚ)) (q : List ℚ) (k : Nat) : List (ℚ × Nat) :=
  ((sortB leIdx (enumFrom 0 (stored.map (fun v => dotQ v q)))).take k).map
    (fun p => (p.2, p.1))

/-- `np.argsort(-scores)` (stable model). -/
def argsortDesc (scores : List ℚ) : List Nat :=
  (sortB leSnd (enumFrom 0 scores)).map Prod.fst

def lookupQ (m : List (Nat × ℚ)) (k : Nat) : ℚ :=
  (((m.find? (fun p => p.1 == k))).map Prod.snd).getD 0

/-! ### match_by_title (matcher.py lines 91-209) -/

def mkResult (e : Entry) (s : ℚ) : MatchResult :=
  ⟨e.noc, e.title, e.teer, s, e.duties_short, e.related_titles⟩

/-- The exact/alias test of strategy 2: non-empty title, and the normalized
query equals the normalized title or appears among the normalized truthy
related titles. -/
def exactHit (n : String) (e : Entry) : Bool :=
  (e.title != "") &&
    (normalizeText e.title == n ||
      ((e.related_titles.filter (fun x => x != "")).map normalizeText).contains n)

def exactMatches (entries : List Entry) (n : String) : List Entry :=
  entries.filter (fun e => exactHit n e)

/-- The `dedupe by noc, first occurrence wins` loop. -/
def dedupByNoc : List MatchResult → List String → List MatchResult
  | [], _ => []
  | r :: rs, seen =>
    if r.noc ∈ seen then dedupByNoc rs seen
    else r :: dedupByNoc rs (r.noc :: seen)

/-- The `emb_score_map` built in the fuzzy branch: when the title index is
loaded, embed the raw query once and search the index for the top
`min(10, len(title_vectors))` inner products; any exception from the
embedding call is caught and the map stays empty. -/
def embScoreMap (env : Env) (title : String) : List (Nat × ℚ) :=
  match env.titleIndex with
  | none => []
  | some tvecs =>
    match env.embed title with
    | Except.error _ => []
    | Except.ok qv =>
      (faissIPSearch tvecs (unitize env.sqrt qv) (min 10 tvecs.length)).map
        (fun p => (p.2, p.1))

/-- Prefix test on character lists. -/
def listPrefix : List Char → List Char → Bool
  | [], _ => true
  | _ :: _, [] => false
  | a :: as, b :: bs => a == b && listPrefix as bs

/-- Python's substring operator `needle in hay`. -/
def subStrB (needle : List Char) : List Char → Bool
  | [] => needle.isEmpty
  | c :: rest => listPrefix needle (c :: rest) || subStrB needle rest

/-- Per-entry combined score of the fuzzy branch (matcher.py lines 172-193):
best string similarity over title and related titles, 0.7/0.3 fusion with
the embedding score, keyword boost 0.05 per matched normalized keyword
capped at 3, clamp at 1. -/
def entryScore (n_title : String) (embScore : ℚ) (e : Entry) : ℚ :=
  let sscore := stringSimilarity n_title (normalizeText e.title)
  let relscore := (e.related_titles.map (fun r => stringSimilarity n_title (normalizeText r))).foldl max 0
  let string_score := max sscore relscore
  let combined := (7 / 10 : ℚ) * string_score + (3 / 10 : ℚ) * embScore
  let keywords := (e.keywords.filter (fun k => k != "")).map normalizeText
  let nMatches := (keywords.filter (fun kw => (kw != "") && subStrB kw.data n_title.data)).length
  min 1 (combined + (1 / 20 : ℚ) * (min nMatches 3 : Nat))

/-- matcher.match_by_title. -/
def matchByTitle (env : Env) (title : String) (topK : ℤ) : List MatchResult :=
  if env.entries.isEmpty then []
  else
    let t_raw := pyStrip title
    match (if pyIsdigit t_raw then env.entries.find? (fun e => e.noc == t_raw) else none) with
    | some e => [mkResult e 1]
    | none =>
      let n_title := normalizeText title
      let immediate := (exactMatches env.entries n_title).map (fun e => mkResult e 1)
      if immediate.isEmpty then
        let emap := embScoreMap env title
        let scored := (enumFrom 0 env.entries).map
          (fun p => (entryScore n_title (lookupQ emap p.1) p.2, p.2))
        let sorted := sortB (fun a b : ℚ × Entry => decide (b.1 < a.1)) scored
        (pySlice sorted topK).map (fun p => mkResult p.2 p.1)
      else pySlice (dedupByNoc immediate []) topK

/-! ### match_by_title_cached (matcher.py lines 212-220)

`functools.lru_cache` keyed on the arguments, modelled as an explicit
association-list cache threaded through the call (the 2048-entry eviction
limit is not modelled; no claim touches eviction). -/

abbrev Cache := List ((String × ℤ) × List MatchResult)

def cachedCall (env : Env) (c : Cache) (normalized_title : String) (topK : ℤ) :
    List MatchResult × Cache :=
  match c.find? (fun p => p.1.1 == normalized_title && p.1.2 == topK) with
  | some p => (p.2, c)
  | none =>
    let r := matchByTitle env normalized_title topK
    (r, ((normalized_title, topK), r) :: c)

/-! ### match_query (matcher.py lines 226-277) -/

def mkQResult (e : Entry) (s : ℚ) : QueryResult :=
  ⟨e.noc, e.title, e.teer, s, String.mk (e.duties.data.take 300)⟩

/-- Python `top_k or config.TOP_K` (None and 0 are both falsy). -/
def pyOrNat (k : Option Nat) (d : Nat) : Nat :=
  match k with
  | none => d
  | some 0 => d
  | some m => m

/-- matcher.match_query: embed the query (failures propagate to the caller),
then search the duty FAISS index when loadable, otherwise brute-force cosine
over the saved JSON embeddings. -/
def matchQuery (env : Env) (query : String) (topK : Option Nat) :
    Except GatewayError (List QueryResult) :=
  let k := pyOrNat topK env.topKDefault
  if env.entries.isEmpty then Except.ok []
  else
    match env.embed query with
    | Except.error e => Except.error e
    | Except.ok qvec =>
      match env.dutyIndex with
      | none =>
        let vecs := env.savedEmbeddings.map (unitize env.sqrt)
        let qn := unitize env.sqrt qvec
        let scores := vecs.map (fun v => dotQ v qn)
        let idxs := (argsortDesc scores).take k
        Except.ok (idxs.map (fun i => mkQResult (env.entries.getD i default) (scores.getD i 0)))
      | some stored =>
        let qn := unitize env.sqrt qvec
        Except.ok ((faissIPSearch stored qn k).map
          (fun p => mkQResult (env.entries.getD p.2 default) p.1))

/-! ### Spec-side definitions for the refinement comparisons -/

/-- Spec 4.2 strategy 3, lexical part, written from the spec's words: the
greater of the title similarity and the maximum alias similarity, all on
normalized text. -/
def specLexicalScore (nq : String) (e : Entry) : ℚ :=
  max (stringSimilarity nq (normalizeText e.title))
    ((e.related_titles.map (fun r => stringSimilarity nq (normalizeText r))).foldl max 0)

/-- Spec 4.2/4.4, written from the spec's words: the number of keywords of
the entry whose normalized form appears as a substring of the normalized
query. -/
def specKwCount (nq : String) (e : Entry) : Nat :=
  (e.keywords.filter (fun kw => subStrB (normalizeText kw).data nq.data)).length

/-- Spec 4.4 step 4, written from the spec's words:
`combined = 0.7*lexical + 0.3*semantic`, keyword boost of `0.05` per matched
keyword capped at 3, clamped to 1. -/
def specFusedScore (lex sem : ℚ) (kwMatched : Nat) : ℚ :=
  min 1 ((7 / 10 : ℚ) * lex + (3 / 10 : ℚ) * sem + (1 / 20 : ℚ) * (min kwMatched 3 : Nat))

/-- An alphanumeric character (either case) — used to state the
`garbage input` clause of the normalizer contract. -/
def isAlnumCh (c : Char) : Bool :=
  ('a' ≤ c && c ≤ 'z') || ('A' ≤ c && c ≤ 'Z') || ('0' ≤ c && c ≤ '9')

/-! ### Concrete environments used by counterexamples and witnesses -/

/-- A gateway that always fails. -/
def failEmbed : String → Except GatewayError (List ℚ) :=
  fun _ => Except.error GatewayError.timeout

/-- Two entries sharing the title `engineer` under distinct codes. -/
def entDup1 : Entry := ⟨"1", "engineer", "", "", "", [], []⟩

def entDup2 : Entry := ⟨"2", "engineer", "", "", "", [], []⟩

def envDup : Env := ⟨[entDup1, entDup2], none, none, [], failEmbed, fun x => x, 5⟩

/-- One entry whose code is the digit string `123`. -/
def entNum : Entry := ⟨"123", "cook", "", "", "", [], []⟩

def envNum : Env := ⟨[entNum], none, none, [], failEmbed, fun x => x, 5⟩

/-- A taxonomy of one entry with title `ab`, plus a loaded title index, in
front of a failing gateway. -/
def entAB : Entry := ⟨"1", "ab", "", "", "", [], []⟩

def envFailTI : Env := ⟨[entAB], some [[1]], none, [], failEmbed, fun x => x, 5⟩

/-- One entry whose stored duty embedding points opposite to the query
embedding; all vectors are unit, so the modelled square root is exact on
every norm it is applied to. -/
def entNeg : Entry := ⟨"9", "welder", "", "welds", "welds", [], []⟩

def envNeg : Env :=
  ⟨[entNeg], none, none, [[1]], fun _ => Except.ok [-1], fun _ => 1, 5⟩

/-- Two entries sharing the title `teacher`, stored with the larger code
first. -/
def entT9 : Entry := ⟨"9", "teacher", "", "", "", [], []⟩

def entT1 : Entry := ⟨"1", "teacher", "", "", "", [], []⟩

def envTie : Env := ⟨[entT9, entT1], none, none, [], failEmbed, fun x => x, 5⟩

/-- A small working environment for witnesses: one entry, consistent duty
index and embeddings, a successful gateway. -/
def entW : Entry := ⟨"42", "florist", "3", "arranges flowers", "arranges flowers", [], []⟩

def envW : Env :=
  ⟨[entW], none, none, [[1]], fun _ => Except.ok [1], fun _ => 1, 5⟩

/-- Two entries with a duty index that is exactly the L2-normalization of the
saved embeddings (all vectors already unit under the modelled square root),
and distinct query-to-entry scores. -/
def envSnap : Env :=
  ⟨[entW, entNeg], none, some [[1, 0], [0, 1]], [[1, 0], [0, 1]],
    fun _ => Except.ok [2, 1], fun _ => 1, 5⟩

/-! ### Helper lemmas: insertion sort -/

theorem mem_insB {α : Type} (le : α → α → Bool) (x z : α) :
    ∀ l : List α, z ∈ insB le x l ↔ z = x ∨ z ∈ l := by
  intro l
  induction l with
  | nil => simp [insB]
  | cons y ys ih =>
    cases h : le x y
    · simp only [insB, h, Bool.false_eq_true, if_false, List.mem_cons, ih]
      tauto
    · simp only [insB, h, if_true, List.mem_cons]

theorem length_insB {α : Type} (le : α → α → Bool) (x : α) :
    ∀ l : List α, (insB le x l).length = l.length + 1 := by
  intro l
  induction l with
  | nil => simp [insB]
  | cons y ys ih =>
    cases h : le x y <;> simp [insB, h, ih]

theorem pairwise_insB {α : Type} {R : α → α → Prop} {le : α → α → Bool}
    (h1 : ∀ a b, le a b = true → R a b) (h2 : ∀ a b, le a b = false → R b a)
    (ht : Transitive R) (x : α) :
    ∀ l : List α, l.Pairwise R → (insB le x l).Pairwise R := by
  intro l hl
  induction l with
  | nil => simp [insB]
  | cons y ys ih =>
    rw [List.pairwise_cons] at hl
    obtain ⟨hy, hys⟩ := hl
    cases h : le x y with
    | true =>
      have hxy : R x y := h1 _ _ h
      simp only [insB, h, if_pos]
      refine List.Pairwise.cons ?_ (List.Pairwise.cons hy hys)
      intro z hz
      rcases List.mem_cons.mp hz with rfl | hz
      · exact hxy
      · exact ht hxy (hy z hz)
    | false =>
      simp only [insB, h, Bool.false_eq_true, if_false]
      refine List.Pairwise.cons ?_ (ih hys)
      intro z hz
      rcases (mem_insB le x z ys).mp hz with rfl | hz
      · exact h2 _ _ h
      · exact hy z hz

theorem insB_congr {α : Type} (le1 le2 : α → α → Bool) (x : α) :
    ∀ l : List α, (∀ y ∈ l, le1 x y = le2 x y) → insB le1 x l = insB le2 x l := by
  intro l hl
  induction l with
  | nil => rfl
  | cons y ys ih =>
    have hxy : le1 x y = le2 x y := hl y (List.mem_cons_self y ys)
    have hys : insB le1 x ys = insB le2 x ys :=
      ih (fun z hz => hl z (List.mem_cons_of_mem y hz))
    cases h : le2 x y with
    | true => simp only [insB, hxy, h, if_pos]
    | false => simp only [insB, hxy, h, Bool.false_eq_true, if_false, hys]

theorem mem_foldl_insB {α : Type} (le : α → α → Bool) (z : α) :
    ∀ (l acc : List α),
      (z ∈ l.foldl (fun a x => insB le x a) acc ↔ z ∈ l ∨ z ∈ acc) := by
  intro l
  induction l with
  | nil => simp
  | cons y ys ih =>
    intro acc
    simp only [List.foldl_cons, ih, mem_insB, List.mem_cons]
    tauto

theorem mem_sortB {α : Type} (le : α → α → Bool) (z : α) (l : List α) :
    z ∈ sortB le l ↔ z ∈ l := by
  simp [sortB, mem_foldl_insB]

theorem length_foldl_insB {α : Type} (le : α → α → Bool) :
    ∀ (l acc : List α),
      (l.foldl (fun a x => insB le x a) acc).length = l.length + acc.length := by
  intro l
  induction l with
  | nil => simp
  | cons y ys ih =>
    intro acc
    simp only [List.foldl_cons, ih, length_insB, List.length_cons]
    omega

theorem length_sortB {α : Type} (le : α → α → Bool) (l : List α) :
    (sortB le l).length = l.length := by
  simp [sortB, length_foldl_insB]

theorem pairwise_foldl_insB {α : Type} {R : α → α → Prop} {le : α → α → Bool}
    (h1 : ∀ a b, le a b = true → R a b) (h2 : ∀ a b, le a b = false → R b a)
    (ht : Transitive R) :
    ∀ (l acc : List α), acc.Pairwise R →
      (l.foldl (fun a x => insB le x a) acc).Pairwise R := by
  intro l
  induction l with
  | nil => intro acc h; simpa using h
  | cons y ys ih =>
    intro acc hacc
    simpa using ih (insB le y acc) (pairwise_insB h1 h2 ht y acc hacc)

theorem pairwise_sortB {α : Type} {R : α → α → Prop} {le : α → α → Bool}
    (h1 : ∀ a b, le a b = true → R a b) (h2 : ∀ a b, le a b = false → R b a)
    (ht : Transitive R) (l : List α) : (sortB le l).Pairwise R :=
  pairwise_foldl_insB h1 h2 ht l [] List.Pairwise.nil

theorem foldl_insB_congr (le1 le2 : Nat × ℚ → Nat × ℚ → Bool)
    (hagree : ∀ p q : Nat × ℚ, p.2 ≠ q.2 → le1 p q = le2 p q) :
    ∀ (l acc : List (Nat × ℚ)),
      (∀ x ∈ l, ∀ y ∈ acc, x.2 ≠ y.2) →
      l.Pairwise (fun a b => a.2 ≠ b.2) →
      l.foldl (fun a x => insB le1 x a) acc = l.foldl (fun a x => insB le2 x a) acc := by
  intro l
  induction l with
  | nil => intro acc _ _; rfl
  | cons y ys ih =>
    intro acc hacc hl
    rw [List.pairwise_cons] at hl
    obtain ⟨hy, hys⟩ := hl
    have hstep : insB le1 y acc = insB le2 y acc :=
      insB_congr le1 le2 y acc (fun z hz => hagree y z (hacc y (List.mem_cons_self y ys) z hz))
    simp only [List.foldl_cons, hstep]
    refine ih (insB le2 y acc) ?_ hys
    intro x hx z hz
    rcases (mem_insB le2 y z acc).mp hz with rfl | hz
    · exact fun h => (hy x hx) h.symm
    · exact hacc x (List.mem_cons_of_mem y hx) z hz

theorem sortB_congr (le1 le2 : Nat × ℚ → Nat × ℚ → Bool)
    (hagree : ∀ p q : Nat × ℚ, p.2 ≠ q.2 → le1 p q = le2 p q)
    (l : List (Nat × ℚ)) (hl : l.Pairwise (fun a b => a.2 ≠ b.2)) :
    sortB le1 l = sortB le2 l :=
  foldl_insB_congr le1 le2 hagree l [] (by simp) hl

/-! ### Helper lemmas: enumeration, dedup, slicing -/

theorem length_enumFrom {α : Type} (n : Nat) (l : List α) :
    (enumFrom n l).length = l.length := by
  induction l generalizing n with
  | nil => rfl
  | cons x xs ih => simp [enumFrom, ih]

theorem mem_enumFrom {α : Type} (d : α) (p : Nat × α) :
    ∀ (l : List α) (n : Nat), p ∈ enumFrom n l →
      n ≤ p.1 ∧ p.1 < n + l.length ∧ l.getD (p.1 - n) d = p.2 ∧ p.2 ∈ l := by
  intro l
  induction l with
  | nil => intro n h; simp [enumFrom] at h
  | cons x xs ih =>
    intro n h
    rcases List.mem_cons.mp h with rfl | h
    · simp
    · obtain ⟨h1, h2, h3, h4⟩ := ih (n + 1) h
      refine ⟨by omega, by simp only [List.length_cons]; omega, ?_,
        List.mem_cons_of_mem x h4⟩
      have hp : p.1 - n = (p.1 - (n + 1)) + 1 := by omega
      rw [hp]
      simpa using h3

theorem pairwise_enumFrom {α : Type} {R : α → α → Prop} :
    ∀ (l : List α) (n : Nat), l.Pairwise R →
      (enumFrom n l).Pairwise (fun a b => R a.2 b.2) := by
  intro l
  induction l with
  | nil => intro n _; exact List.Pairwise.nil
  | cons x xs ih =>
    intro n h
    rw [List.pairwise_cons] at h
    refine List.Pairwise.cons ?_ (ih (n + 1) h.2)
    intro q hq
    exact h.1 q.2 (mem_enumFrom x q xs (n + 1) hq).2.2.2

theorem mem_dedupByNoc (r : MatchResult) :
    ∀ (l : List MatchResult) (seen : List String), r ∈ dedupByNoc l seen → r ∈ l := by
  intro l
  induction l with
  | nil => intro seen h; simp [dedupByNoc] at h
  | cons x xs ih =>
    intro seen h
    by_cases hx : x.noc ∈ seen
    · simp only [dedupByNoc, if_pos hx] at h
      exact List.mem_cons_of_mem x (ih seen h)
    · simp only [dedupByNoc, if_neg hx] at h
      rcases List.mem_cons.mp h with rfl | h
      · exact List.mem_cons_self _ _
      · exact List.mem_cons_of_mem x (ih _ h)

theorem pySlice_sublist {α : Type} (l : List α) (k : ℤ) : (pySlice l k).Sublist l :=
  List.take_sublist _ _

theorem mem_pySlice {α : Type} {z : α} {l : List α} {k : ℤ} (h : z ∈ pySlice l k) : z ∈ l :=
  (pySlice_sublist l k).mem h

theorem pairwise_all_eq {α : Type} (key : α → ℚ) (c : ℚ) :
    ∀ l : List α, (∀ a ∈ l, key a = c) → l.Pairwise (fun a b => key b ≤ key a) := by
  intro l
  induction l with
  | nil => intro _; exact List.Pairwise.nil
  | cons x xs ih =>
    intro h
    refine List.Pairwise.cons ?_ (ih (fun a ha => h a (List.mem_cons_of_mem x ha)))
    intro b hb
    rw [h b (List.mem_cons_of_mem x hb), h x (List.mem_cons_self x xs)]

/-! ### Helper lemmas: the normalizer -/

theorem mem_replRunsGo (p : Char → Bool) (d : Char) :
    ∀ (b : Bool) (l : List Char), d ∈ replRunsGo p b l → d = ' ' ∨ (d ∈ l ∧ p d = false) := by
  intro b l
  induction l generalizing b with
  | nil => intro h; simp [replRunsGo] at h
  | cons c cs ih =>
    intro h
    by_cases hc : p c = true
    · cases b with
      | true =>
        simp only [replRunsGo, hc, if_true] at h
        rcases ih true h with h' | h'
        · exact Or.inl h'
        · exact Or.inr ⟨List.mem_cons_of_mem c h'.1, h'.2⟩
      | false =>
        simp only [replRunsGo, hc, if_true] at h
        rcases List.mem_cons.mp h with rfl | h
        · exact Or.inl rfl
        · rcases ih true h with h' | h'
          · exact Or.inl h'
          · exact Or.inr ⟨List.mem_cons_of_mem c h'.1, h'.2⟩
    · rw [Bool.not_eq_true] at hc
      simp only [replRunsGo, hc, Bool.false_eq_true, if_false] at h
      rcases List.mem_cons.mp h with rfl | h
      · exact Or.inr ⟨List.mem_cons_self _ _, hc⟩
      · rcases ih false h with h' | h'
        · exact Or.inl h'
        · exact Or.inr ⟨List.mem_cons_of_mem c h'.1, h'.2⟩

theorem replRunsGo_true_of_all (p : Char → Bool) :
    ∀ l : List Char, (∀ c ∈ l, p c = true) → replRunsGo p true l = [] := by
  intro l
  induction l with
  | nil => intro _; rfl
  | cons c cs ih =>
    intro h
    simp only [replRunsGo, h c (List.mem_cons_self c cs), if_true]
    exact ih (fun d hd => h d (List.mem_cons_of_mem c hd))

theorem replRuns_of_all (p : Char → Bool) (l : List Char)
    (h : ∀ c ∈ l, p c = true) : replRuns p l = if l.isEmpty then [] else [' '] := by
  cases l with
  | nil => rfl
  | cons c cs =>
    simp only [replRuns, replRunsGo, h c (List.mem_cons_self c cs), if_true,
      List.isEmpty_cons]
    rw [replRunsGo_true_of_all p cs (fun d hd => h d (List.mem_cons_of_mem c hd))]

theorem mem_dropWhile (p : Char → Bool) (d : Char) :
    ∀ l : List Char, d ∈ l.dropWhile p → d ∈ l := by
  intro l
  induction l with
  | nil => intro h; simp at h
  | cons c cs ih =>
    intro h
    by_cases hc : p c = true
    · rw [List.dropWhile_cons_of_pos hc] at h
      exact List.mem_cons_of_mem c (ih h)
    · rw [List.dropWhile_cons_of_neg hc] at h
      exact h

theorem mem_stripWS (d : Char) (l : List Char) (h : d ∈ stripWS l) : d ∈ l := by
  unfold stripWS at h
  rw [List.mem_reverse] at h
  have h1 := mem_dropWhile isPyWS d _ h
  rw [List.mem_reverse] at h1
  exact mem_dropWhile isPyWS d _ h1

theorem pyLower_of_not_alnum (c : Char) (h : isAlnumCh c = false) : pyLower c = c := by
  unfold pyLower
  rw [if_neg]
  intro hc
  simp only [isAlnumCh, Bool.or_eq_false_iff, Bool.and_eq_false_iff] at h
  obtain ⟨⟨_, h2⟩, _⟩ := h
  rcases h2 with h2 | h2 <;> simp [hc.1, hc.2] at h2

theorem isKeep_of_not_alnum (c : Char) (hk : isKeep c = true) (h : isAlnumCh c = false) :
    c = ' ' := by
  simp only [isKeep, Bool.or_eq_true, Bool.and_eq_true] at hk
  simp only [isAlnumCh, Bool.or_eq_false_iff, Bool.and_eq_false_iff] at h
  obtain ⟨⟨ha, _⟩, hd⟩ := h
  rcases hk with (hk | hk) | hk
  · rcases ha with ha | ha <;> simp [hk.1, hk.2] at ha
  · rcases hd with hd | hd <;> simp [hk.1, hk.2] at hd
  · exact eq_of_beq hk

/-! ### Claim C8: the normalizer contract -/

/-- Counterexample to C8 as stated: `normalize_text` on the all-garbage
input `!!!` returns a single space, not the empty string, and on `abc!`
returns `abc ` with a trailing space, so the output is not trimmed. -/
theorem normalizeText_c8_counterexample :
    normalizeText ("!!!") = " " ∧ normalizeText ("abc!") = "abc " ∧
    (" " : String) ≠ "" ∧ ("abc " : String) ≠ "abc" := by
  refine ⟨?_, ?_, ?_, ?_⟩ <;> decide

/-- C8 (amended): normalize_text is a total pure function that lowercases;
it replaces runs of characters outside `[a-z0-9 ]` by a single space (and
only strips whitespace, before that replacement), so every output character
lies in `[a-z0-9 ]` but the ends need not be trimmed, and an input with no
alphanumeric character normalizes to `""` (when empty or whitespace-only)
or to the single space `" "` — not always to `""`. -/
theorem normalizeText_charset_and_garbage (s : String) :
    (∀ c ∈ (normalizeText s).data, isKeep c = true) ∧
    ((∀ c ∈ s.data, isAlnumCh c = false) →
      normalizeText s = "" ∨ normalizeText s = " ") := by
  by_cases he : s.data.isEmpty = true
  · constructor
    · intro c hc
      rw [normalizeText, if_pos he] at hc
      simp at hc
    · intro _
      left
      rw [normalizeText, if_pos he]
  · have hne : normalizeText s =
        String.mk (replRuns isPyWS (replRuns (fun c => !isKeep c) (stripWS (s.data.map pyLower)))) := by
      rw [normalizeText, if_neg he]
    constructor
    · intro c hc
      rw [hne] at hc
      rcases mem_replRunsGo isPyWS c false _ hc with rfl | ⟨hc2, _⟩
      · decide
      · rcases mem_replRunsGo _ c false _ hc2 with rfl | ⟨_, hk⟩
        · decide
        · simpa using hk
    · intro hg
      have hA : ∀ c ∈ stripWS (s.data.map pyLower), isAlnumCh c = false := by
        intro c hc
        obtain ⟨c0, hc0, hlc⟩ := List.mem_map.mp (mem_stripWS c _ hc)
        have h0 : isAlnumCh c0 = false := hg c0 hc0
        rw [← hlc, pyLower_of_not_alnum c0 h0]
        exact h0
      have hB : ∀ d ∈ replRuns (fun c => !isKeep c) (stripWS (s.data.map pyLower)),
          isPyWS d = true := by
        intro d hd
        rcases mem_replRunsGo _ d false _ hd with rfl | ⟨hd2, hk⟩
        · decide
        · have hk' : isKeep d = true := by simpa using hk
          rw [isKeep_of_not_alnum d hk' (hA d hd2)]
          decide
      rw [hne, replRuns_of_all isPyWS _ hB]
      by_cases hl : (replRuns (fun c => !isKeep c) (stripWS (s.data.map pyLower))).isEmpty = true
      · left; rw [if_pos hl]
      · right; rw [if_neg hl]

/-- C8 witness: the all-punctuation input `?!?` satisfies the garbage
hypothesis, and the amended theorem applies to it. -/
theorem normalizeText_charset_and_garbage_witness :
    (∀ c ∈ ("?!?" : String).data, isAlnumCh c = false) ∧
    (normalizeText ("?!?") = "" ∨ normalizeText ("?!?") = " ") :=
  ⟨by decide, (normalizeText_charset_and_garbage ("?!?")).2 (by decide)⟩

/-! ### Claim C7: cache determinism on the normalized form -/

/-- Calling the cached lookup again with the same key is a pure hit. -/
theorem cachedCall_hit (env : Env) (c : Cache) (n : String) (k : ℤ) :
    cachedCall env (cachedCall env c n k).2 n k = cachedCall env c n k := by
  unfold cachedCall
  cases hf : c.find? (fun p => p.1.1 == n && p.1.2 == k) with
  | some p => simp [hf]
  | none =>
    simp only [hf]
    rw [List.find?_cons_of_pos _ (by simp)]

/-- C7: two inputs whose normalizations agree resolve to the same cache key
`(normalizedQuery, topK)` of match_by_title_cached, so after the first call
populates the cache the second is a hit: it returns the identical ordered
result list and leaves the cache unchanged — the result depends only on the
normalized form of the input. -/
theorem cachedCall_normalized_determinism (env : Env) (c0 : Cache) (s1 s2 : String)
    (k : ℤ) (h : normalizeText s1 = normalizeText s2) :
    (cachedCall env (cachedCall env c0 (normalizeText s1) k).2 (normalizeText s2) k).1 =
      (cachedCall env c0 (normalizeText s1) k).1 ∧
    (cachedCall env (cachedCall env c0 (normalizeText s1) k).2 (normalizeText s2) k).2 =
      (cachedCall env c0 (normalizeText s1) k).2 := by
  rw [← h, cachedCall_hit]
  exact ⟨rfl, rfl⟩

/-- C7 witness: two differently-cased spellings of the same title normalize
identically, and the theorem applies to them on a concrete environment and
an empty starting cache. -/
theorem cachedCall_normalized_determinism_witness :
    normalizeText ("Gardener") = normalizeText ("GARDENER") ∧
    ((cachedCall envW (cachedCall envW [] (normalizeText ("Gardener")) 2).2
        (normalizeText ("GARDENER")) 2).1 =
      (cachedCall envW [] (normalizeText ("Gardener")) 2).1 ∧
    (cachedCall envW (cachedCall envW [] (normalizeText ("Gardener")) 2).2
        (normalizeText ("GARDENER")) 2).2 =
      (cachedCall envW [] (normalizeText ("Gardener")) 2).2) :=
  ⟨by decide, cachedCall_normalized_determinism envW [] ("Gardener") ("GARDENER") 2 (by decide)⟩

/-! ### Claim C3: the fuzzy-path score formula -/

/-- C3: on the fuzzy+semantic path every entry's combined score computed by
match_by_title equals the spec's fused formula
`min(1, 0.7*lexical + 0.3*semantic + 0.05*min(matchedKeywords, 3))`, where
a keyword matches when its normalized form is a substring of the normalized
query (stated for entries whose keywords are non-degenerate, i.e. non-empty
before and after normalization, since Python's truthiness filters skip the
degenerate ones); and for lexical score 0.8 and semantic score 0.2 the
pre-boost fusion is exactly 0.62. -/
theorem entryScore_matches_spec (q : String) (emb : ℚ) (e : Entry)
    (hkw : ∀ kw ∈ e.keywords, kw ≠ "" ∧ normalizeText kw ≠ "") :
    entryScore (normalizeText q) emb e =
      specFusedScore (specLexicalScore (normalizeText q) e) emb
        (specKwCount (normalizeText q) e) ∧
    (7 / 10 : ℚ) * (8 / 10) + (3 / 10) * (2 / 10) = 62 / 100 := by
  constructor
  · have hfilter : e.keywords.filter (fun k => k != "") = e.keywords := by
      refine List.filter_eq_self.mpr ?_
      intro a ha
      simpa using (hkw a ha).1
    have hcount :
        ((e.keywords.filter (fun k => k != "")).map normalizeText).filter
            (fun kw => (kw != "") && subStrB kw.data (normalizeText q).data) =
          ((e.keywords.filter
            (fun kw => subStrB (normalizeText kw).data (normalizeText q).data)).map
              normalizeText) := by
      rw [hfilter, List.filter_map normalizeText e.keywords]
      congr 1
      refine List.filter_congr ?_
      intro a ha
      have h2 : (normalizeText a != "") = true := by
        simpa using (hkw a ha).2
      simp [Function.comp, h2]
    simp only [entryScore, specFusedScore, specLexicalScore, specKwCount, hcount,
      List.length_map]
  · norm_num

/-- C3 witness: a concrete entry with one non-degenerate keyword satisfies
the hypothesis and the theorem applies to it. -/
theorem entryScore_matches_spec_witness :
    (∀ kw ∈ (Entry.mk "1" "cook" "" "" "" [] ["chef"]).keywords,
      kw ≠ "" ∧ normalizeText kw ≠ "") ∧
    entryScore (normalizeText ("chef de cuisine")) (1 / 2)
        (Entry.mk "1" "cook" "" "" "" [] ["chef"]) =
      specFusedScore
        (specLexicalScore (normalizeText ("chef de cuisine"))
          (Entry.mk "1" "cook" "" "" "" [] ["chef"])) (1 / 2)
        (specKwCount (normalizeText ("chef de cuisine"))
          (Entry.mk "1" "cook" "" "" "" [] ["chef"])) :=
  ⟨by decide,
    (entryScore_matches_spec ("chef de cuisine") (1 / 2)
      (Entry.mk "1" "cook" "" "" "" [] ["chef"]) (by decide)).1⟩

/-! ### Claim C6: topK ≤ 0 -/

/-- Counterexample to C6 as stated: for the query `123`, a numeric code
present in the taxonomy, and `topK = 0 ≤ 0`, match_by_title returns the
code-shortcut singleton, not the empty list (the shortcut returns before
any truncation by topK). -/
theorem matchByTitle_c6_counterexample :
    (0 : ℤ) ≤ 0 ∧ matchByTitle envNum ("123") 0 = [mkResult entNum 1] ∧
    ([mkResult entNum 1] : List MatchResult) ≠ [] := by
  refine ⟨le_refl 0, ?_, ?_⟩ <;> decide

/-- C6 (amended): with `topK = 0`, match_by_title returns the empty list for
every query that does not hit the numeric-code shortcut (for digit queries
matching an entry code the shortcut still returns a singleton, and for
negative topK Python's slicing drops elements from the end instead, so
non-empty results are possible). -/
theorem matchByTitle_topk_zero_empty (env : Env) (q : String)
    (h : ¬ (pyIsdigit (pyStrip q) = true ∧
      (env.entries.find? (fun e => e.noc == pyStrip q)).isSome = true)) :
    matchByTitle env q 0 = [] := by
  unfold matchByTitle
  by_cases he : env.entries.isEmpty = true
  · simp [he]
  · simp only [he, Bool.false_eq_true, if_false]
    have hnum : (if pyIsdigit (pyStrip q) = true
        then env.entries.find? (fun e => e.noc == pyStrip q) else none) = none := by
      by_cases hd : pyIsdigit (pyStrip q) = true
      · rw [if_pos hd]
        cases hf : env.entries.find? (fun e => e.noc == pyStrip q) with
        | none => rfl
        | some e => exact absurd ⟨hd, by rw [hf]; rfl⟩ h
      · rw [if_neg hd]
    rw [hnum]
    by_cases hi : ((exactMatches env.entries (normalizeText q)).map
        (fun e => mkResult e 1)).isEmpty = true
    · simp only [hi, if_true]
      simp [pySlice]
    · simp only [hi, Bool.false_eq_true, if_false]
      simp [pySlice]

/-- C6 witness: the non-numeric query `cook` with `topK = 0` on a concrete
taxonomy yields the empty list via the amended theorem. -/
theorem matchByTitle_topk_zero_empty_witness :
    (¬ (pyIsdigit (pyStrip ("cook")) = true ∧
      (envNum.entries.find? (fun e => e.noc == pyStrip ("cook"))).isSome = true)) ∧
    matchByTitle envNum ("cook") 0 = [] :=
  ⟨by decide, matchByTitle_topk_zero_empty envNum ("cook") (by decide)⟩

/-! ### Claim C10: the fuzzy fallback scores every entry -/

/-- C10: when the taxonomy is non-empty, `topK ≥ 1`, the numeric shortcut
does not fire and the exact/alias strategy finds nothing, the fuzzy fallback
of match_by_title scores every entry and returns exactly
`min(topK, numberOfEntries)` results — never an empty list. -/
theorem matchByTitle_fuzzy_count (env : Env) (q : String) (k : ℤ)
    (hne : env.entries ≠ [])
    (hk : 1 ≤ k)
    (hnum : ¬ (pyIsdigit (pyStrip q) = true ∧
      (env.entries.find? (fun e => e.noc == pyStrip q)).isSome = true))
    (hex : exactMatches env.entries (normalizeText q) = []) :
    (matchByTitle env q k).length = min k.toNat env.entries.length := by
  unfold matchByTitle
  have he : env.entries.isEmpty = false := by
    cases henv : env.entries with
    | nil => exact absurd henv hne
    | cons a l => rfl
  simp only [he, Bool.false_eq_true, if_false]
  have hn : (if pyIsdigit (pyStrip q) = true
      then env.entries.find? (fun e => e.noc == pyStrip q) else none) = none := by
    by_cases hd : pyIsdigit (pyStrip q) = true
    · rw [if_pos hd]
      cases hf : env.entries.find? (fun e => e.noc == pyStrip q) with
      | none => rfl
      | some e => exact absurd ⟨hd, by rw [hf]; rfl⟩ hnum
    · rw [if_neg hd]
  rw [hn]
  have hi : ((exactMatches env.entries (normalizeText q)).map
      (fun e => mkResult e 1)).isEmpty = true := by
    rw [hex]; rfl
  simp only [hi, if_true]
  rw [List.length_map, pySlice, List.length_take, length_sortB, List.length_map,
    length_enumFrom, if_pos (by omega : (0 : ℤ) ≤ k)]

/-- C10 witness: a query far from the single stored title misses both the
numeric shortcut and the exact strategy, and the theorem yields
`min(3, 1) = 1` result. -/
theorem matchByTitle_fuzzy_count_witness :
    (envNum.entries ≠ [] ∧ (1 : ℤ) ≤ 3 ∧
      (¬ (pyIsdigit (pyStrip ("zz")) = true ∧
        (envNum.entries.find? (fun e => e.noc == pyStrip ("zz"))).isSome = true)) ∧
      exactMatches envNum.entries (normalizeText ("zz")) = []) ∧
    (matchByTitle envNum ("zz") 3).length = min (3 : ℤ).toNat envNum.entries.length :=
  ⟨⟨by decide, by omega, by decide, by decide⟩,
    matchByTitle_fuzzy_count envNum ("zz") 3 (by decide) (by omega) (by decide) (by decide)⟩

/-! ### Claim C1: exact-title lookup returns the entry on top -/

/-- Counterexample to C1 as stated: two entries share the title `engineer`
under the distinct codes `1` and `2`; for the second entry the top result of
match_by_title on its own title carries code `1`, not its code `2` (the
exact/alias strategy keeps the first occurrence). -/
theorem matchByTitle_c1_counterexample :
    entDup2 ∈ envDup.entries ∧ entDup2.title ≠ "" ∧
    (matchByTitle envDup (entDup2.title) 1).map MatchResult.noc = ["1"] ∧
    (matchByTitle envDup (entDup2.title) 1).map MatchResult.score = [1] ∧
    entDup2.noc = "2" ∧ ("1" : String) ≠ "2" := by
  refine ⟨?_, ?_, ?_, ?_, ?_, ?_⟩ <;> decide

/-- C1 (amended): for an entry `e` whose title is not a pure digit string,
if `e` is the first entry of the store whose normalized title or normalized
aliases match `normalize(e.title)` (in particular whenever titles and
aliases are duplicate-free), then `match_by_title(e.title, k)` with `k ≥ 1`
returns `e`'s code as the top result with score exactly 1. -/
theorem matchByTitle_exact_title_top (env : Env) (e : Entry) (k : ℤ)
    (hk : 1 ≤ k)
    (hnd : pyIsdigit (pyStrip e.title) = false)
    (hfirst : (exactMatches env.entries (normalizeText e.title)).head? = some e) :
    (matchByTitle env e.title k).head? = some (mkResult e 1) := by
  cases hm : exactMatches env.entries (normalizeText e.title) with
  | nil => rw [hm] at hfirst; exact absurd hfirst (by simp)
  | cons a rest =>
    have ha : a = e := by
      rw [hm] at hfirst
      simpa using hfirst
    subst ha
    have hne : env.entries.isEmpty = false := by
      cases henv : env.entries with
      | nil =>
        rw [exactMatches, henv] at hm
        simp at hm
      | cons b l => rfl
    unfold matchByTitle
    simp only [hne, Bool.false_eq_true, if_false, hnd, if_false]
    rw [hm]
    simp only [List.map_cons]
    have himm : (mkResult a 1 :: rest.map (fun e => mkResult e 1)).isEmpty = false := rfl
    simp only [himm, Bool.false_eq_true, if_false]
    have hd : dedupByNoc (mkResult a 1 :: rest.map (fun e => mkResult e 1)) [] =
        mkResult a 1 :: dedupByNoc (rest.map (fun e => mkResult e 1)) [(mkResult a 1).noc] := by
      rw [dedupByNoc, if_neg (by simp)]
    rw [hd]
    obtain ⟨m, hm2⟩ : ∃ m, k.toNat = m + 1 := ⟨k.toNat - 1, by omega⟩
    rw [pySlice, if_pos (by omega : (0 : ℤ) ≤ k), hm2, List.take_succ_cons]
    rfl

/-- C1 witness: the single-entry environment satisfies the hypotheses for
its own title `florist`, and the theorem puts that entry on top at score 1. -/
theorem matchByTitle_exact_title_top_witness :
    ((1 : ℤ) ≤ 1 ∧ pyIsdigit (pyStrip entW.title) = false ∧
      (exactMatches envW.entries (normalizeText entW.title)).head? = some entW) ∧
    (matchByTitle envW entW.title 1).head? = some (mkResult entW 1) :=
  ⟨⟨by omega, by decide, by decide⟩,
    matchByTitle_exact_title_top envW entW 1 (by omega) (by decide) (by decide)⟩

/-! ### Evaluation equations for matchQuery and the fuzzy branch -/

theorem matchQuery_empty_eq (env : Env) (q : String) (topK : Option Nat)
    (he : env.entries.isEmpty = true) :
    matchQuery env q topK = Except.ok [] := by
  unfold matchQuery
  simp [he]

theorem matchQuery_error_eq (env : Env) (q : String) (topK : Option Nat)
    (err : GatewayError) (he : env.entries.isEmpty = false)
    (hemb : env.embed q = Except.error err) :
    matchQuery env q topK = Except.error err := by
  unfold matchQuery
  simp [he, hemb]

theorem matchQuery_brute_eq (env : Env) (q : String) (topK : Option Nat)
    (qvec : List ℚ) (he : env.entries.isEmpty = false)
    (hemb : env.embed q = Except.ok qvec) (hidx : env.dutyIndex = none) :
    matchQuery env q topK = Except.ok
      ((((argsortDesc ((env.savedEmbeddings.map (unitize env.sqrt)).map
          (fun v => dotQ v (unitize env.sqrt qvec)))).take (pyOrNat topK env.topKDefault)).map
        (fun i => mkQResult (env.entries.getD i default)
          (((env.savedEmbeddings.map (unitize env.sqrt)).map
            (fun v => dotQ v (unitize env.sqrt qvec))).getD i 0)))) := by
  unfold matchQuery
  simp [he, hemb, hidx]

theorem matchQuery_faiss_eq (env : Env) (q : String) (topK : Option Nat)
    (qvec : List ℚ) (stored : List (List ℚ)) (he : env.entries.isEmpty = false)
    (hemb : env.embed q = Except.ok qvec) (hidx : env.dutyIndex = some stored) :
    matchQuery env q topK = Except.ok
      ((faissIPSearch stored (unitize env.sqrt qvec) (pyOrNat topK env.topKDefault)).map
        (fun p => mkQResult (env.entries.getD p.2 default) p.1)) := by
  unfold matchQuery
  simp [he, hemb, hidx]

theorem matchByTitle_fuzzy_eq (env : Env) (q : String) (k : ℤ)
    (he : env.entries.isEmpty = false)
    (hnum : (if pyIsdigit (pyStrip q) = true
      then env.entries.find? (fun e => e.noc == pyStrip q) else none) = none)
    (hex : exactMatches env.entries (normalizeText q) = []) :
    matchByTitle env q k =
      (pySlice (sortB (fun a b : ℚ × Entry => decide (b.1 < a.1))
        ((enumFrom 0 env.entries).map (fun p =>
          (entryScore (normalizeText q) (lookupQ (embScoreMap env q) p.1) p.2, p.2)))) k).map
        (fun p => mkResult p.2 p.1) := by
  unfold matchByTitle
  simp only [he, Bool.false_eq_true, if_false]
  rw [hnum]
  simp [hex]

/-! ### Claim C2: gateway failures -/

/-- Counterexample to C2 as stated: with the title index loaded and a
gateway that always fails, match_by_title on the fuzzy path does not surface
any failure — it silently returns the string-only ranking with every
semantic score zeroed (here the single entry at combined score 0). -/
theorem matchByTitle_c2_counterexample :
    envFailTI.embed ("cd") = Except.error GatewayError.timeout ∧
    envFailTI.titleIndex.isSome = true ∧
    embScoreMap envFailTI ("cd") = [] ∧
    matchByTitle envFailTI ("cd") 5 = [mkResult entAB 0] := by
  refine ⟨rfl, rfl, rfl, ?_⟩
  with_unfolding_all decide

/-- C2 (amended): an embedding-gateway failure propagates to the caller of
match_query (duty-based search does not catch it), but on the fuzzy title
path match_by_title catches the failure and degrades to string-only scoring:
its result is identical to running without any title index, i.e. with all
semantic scores silently zeroed. -/
theorem gateway_failure_paths (env : Env) (q : String) (kq : Option Nat) (kt : ℤ)
    (err : GatewayError) (hemb : env.embed q = Except.error err) :
    (env.entries ≠ [] → matchQuery env q kq = Except.error err) ∧
    matchByTitle env q kt = matchByTitle { env with titleIndex := none } q kt := by
  constructor
  · intro hne
    have he : env.entries.isEmpty = false := by
      cases h : env.entries with
      | nil => exact absurd h hne
      | cons a l => rfl
    exact matchQuery_error_eq env q kq err he hemb
  · have hmap : embScoreMap env q = embScoreMap { env with titleIndex := none } q := by
      unfold embScoreMap
      cases env.titleIndex with
      | none => rfl
      | some tv => simp [hemb]
    unfold matchByTitle
    simp only [hmap]

/-- C2 witness: the failing-gateway environment instantiates the amended
theorem; match_query fails with the gateway error while match_by_title
coincides with the index-free run. -/
theorem gateway_failure_paths_witness :
    envFailTI.embed ("cd") = Except.error GatewayError.timeout ∧
    ((envFailTI.entries ≠ [] →
        matchQuery envFailTI ("cd") (some 5) = Except.error GatewayError.timeout) ∧
      matchByTitle envFailTI ("cd") 5 =
        matchByTitle { envFailTI with titleIndex := none } ("cd") 5) :=
  ⟨rfl, gateway_failure_paths envFailTI ("cd") (some 5) 5 GatewayError.timeout rfl⟩

/-! ### Claim C9: the score range -/

/-- Counterexample to C9 as stated: a stored duty vector opposite to the
query embedding gives cosine score -1, so match_query returns a MatchResult
whose score lies outside [0, 1]. -/
theorem matchQuery_c9_counterexample :
    matchQuery envNeg ("q") (some 5) = Except.ok [mkQResult entNeg (-1)] ∧
    (mkQResult entNeg (-1)).score < 0 := by
  constructor
  · with_unfolding_all decide
  · with_unfolding_all decide

/-- C9 (amended): every score returned by match_by_title is at most 1 (the
code and exact/alias paths emit exactly 1 and the fuzzy path clamps at 1),
but the lower bound 0 does not hold: fuzzy scores can be negative when the
title-index inner product is negative, and match_query returns raw cosine
scores, which range over [-1, 1] rather than [0, 1]. -/
theorem matchByTitle_score_le_one (env : Env) (q : String) (k : ℤ) :
    ∀ r ∈ matchByTitle env q k, r.score ≤ 1 := by
  intro r hr
  unfold matchByTitle at hr
  by_cases he : env.entries.isEmpty = true
  · rw [if_pos he] at hr
    simp at hr
  · simp only [he, Bool.false_eq_true, if_false] at hr
    cases hn : (if pyIsdigit (pyStrip q) = true
        then env.entries.find? (fun e => e.noc == pyStrip q) else none) with
    | some e =>
      rw [hn] at hr
      simp only [List.mem_singleton] at hr
      rw [hr]
      exact le_refl 1
    | none =>
      rw [hn] at hr
      by_cases hi : ((exactMatches env.entries (normalizeText q)).map
          (fun e => mkResult e 1)).isEmpty = true
      · simp only [hi, if_true] at hr
        obtain ⟨p, hp, rfl⟩ := List.mem_map.mp hr
        have hp2 := mem_pySlice hp
        rw [mem_sortB] at hp2
        obtain ⟨pe, _, rfl⟩ := List.mem_map.mp hp2
        exact min_le_left _ _
      · simp only [hi, Bool.false_eq_true, if_false] at hr
        have h1 := mem_pySlice hr
        have h2 := mem_dedupByNoc r _ _ h1
        obtain ⟨e2, _, rfl⟩ := List.mem_map.mp h2
        exact le_refl 1

/-- C9 witness: the upper bound applies to a concrete fuzzy result of the
dissimilar query `zz` on the one-entry taxonomy. -/
theorem matchByTitle_score_le_one_witness :
    (matchByTitle envNum ("zz") 3).head? = some (mkResult entNum 0) ∧
    (mkResult entNum 0).score ≤ 1 := by
  have hmem : mkResult entNum 0 ∈ matchByTitle envNum ("zz") 3 := by
    have h : matchByTitle envNum ("zz") 3 = [mkResult entNum 0] := by
      with_unfolding_all decide
    rw [h]
    exact List.mem_singleton.mpr rfl
  exact ⟨by with_unfolding_all decide,
    matchByTitle_score_le_one envNum ("zz") 3 (mkResult entNum 0) hmem⟩

/-! ### Sortedness of the ranked outputs -/

theorem pairwise_sortB_scoreEntry (l : List (ℚ × Entry)) :
    (sortB (fun a b : ℚ × Entry => decide (b.1 < a.1)) l).Pairwise
      (fun a b : ℚ × Entry => b.1 ≤ a.1) := by
  refine pairwise_sortB ?_ ?_ ?_ l
  · intro a b h
    exact le_of_lt (of_decide_eq_true h)
  · intro a b h
    exact le_of_not_lt (of_decide_eq_false h)
  · intro a b c hab hbc
    exact le_trans hbc hab

theorem pairwise_sortB_leSnd (l : List (Nat × ℚ)) :
    (sortB leSnd l).Pairwise (fun p q : Nat × ℚ => q.2 ≤ p.2) := by
  refine pairwise_sortB ?_ ?_ ?_ l
  · intro a b h
    exact le_of_lt (of_decide_eq_true h)
  · intro a b h
    exact le_of_not_lt (of_decide_eq_false h)
  · intro a b c hab hbc
    exact le_trans hbc hab

theorem pairwise_sortB_leIdx (l : List (Nat × ℚ)) :
    (sortB leIdx l).Pairwise (fun p q : Nat × ℚ => q.2 ≤ p.2) := by
  refine pairwise_sortB ?_ ?_ ?_ l
  · intro a b h
    rcases of_decide_eq_true h with h' | h'
    · exact le_of_lt h'
    · exact le_of_eq h'.1.symm
  · intro a b h
    have h' := of_decide_eq_false h
    push_neg at h'
    exact h'.1
  · intro a b c hab hbc
    exact le_trans hbc hab

theorem scores_getD_of_mem_sortB (le : Nat × ℚ → Nat × ℚ → Bool) (scores : List ℚ)
    (p : Nat × ℚ) (hp : p ∈ sortB le (enumFrom 0 scores)) :
    scores.getD p.1 0 = p.2 := by
  have h := mem_enumFrom (0 : ℚ) p scores 0 ((mem_sortB le p _).mp hp)
  simpa using h.2.2.1

theorem argsortDesc_pairwise (scores : List ℚ) :
    (argsortDesc scores).Pairwise
      (fun i j => scores.getD j 0 ≤ scores.getD i 0) := by
  unfold argsortDesc
  rw [List.pairwise_map]
  refine (pairwise_sortB_leSnd (enumFrom 0 scores)).imp_of_mem ?_
  intro p q hp hq hle
  rw [scores_getD_of_mem_sortB leSnd scores p hp,
    scores_getD_of_mem_sortB leSnd scores q hq]
  exact hle

theorem faissIPSearch_pairwise (stored : List (List ℚ)) (q : List ℚ) (k : Nat) :
    (faissIPSearch stored q k).Pairwise (fun a b : ℚ × Nat => b.1 ≤ a.1) := by
  unfold faissIPSearch
  rw [List.pairwise_map]
  exact (pairwise_sortB_leIdx _).sublist (List.take_sublist _ _)

/-! ### Claim C5: result ordering -/

/-- Counterexample to C5 as stated: two entries share the title `teacher`
but are stored with the larger code `9` first; the exact/alias strategy
returns both at score 1 in store order, so the equal-score pair appears with
codes `9` before `1` — descending, not ascending, code order. -/
theorem matchByTitle_c5_counterexample :
    matchByTitle envTie ("teacher") 5 = [mkResult entT9 1, mkResult entT1 1] ∧
    (mkResult entT9 1).score = (mkResult entT1 1).score ∧
    (mkResult entT9 1).noc.data = ['9'] ∧ (mkResult entT1 1).noc.data = ['1'] ∧
    ('1' : Char) < '9' := by
  refine ⟨?_, ?_, ?_, ?_, ?_⟩ <;> with_unfolding_all decide

/-- C5 (amended): every result list returned by match_by_title and by
match_query is ordered by descending score, but equal-score results appear
in taxonomy-store order (Python's sort is stable and the exact path keeps
store order), with no ascending-code guarantee on ties. -/
theorem match_results_sorted (env : Env) (q : String) (kt : ℤ) (kq : Option Nat)
    (res : List QueryResult) (hq : matchQuery env q kq = Except.ok res) :
    (matchByTitle env q kt).Pairwise
      (fun a b : MatchResult => b.score ≤ a.score) ∧
    res.Pairwise (fun a b : QueryResult => b.score ≤ a.score) := by
  constructor
  · unfold matchByTitle
    by_cases he : env.entries.isEmpty = true
    · rw [if_pos he]
      exact List.Pairwise.nil
    · simp only [he, Bool.false_eq_true, if_false]
      cases hn : (if pyIsdigit (pyStrip q) = true
          then env.entries.find? (fun e => e.noc == pyStrip q) else none) with
      | some e =>
        exact List.pairwise_singleton _ _
      | none =>
        by_cases hi : ((exactMatches env.entries (normalizeText q)).map
            (fun e => mkResult e 1)).isEmpty = true
        · simp only [hi, if_true]
          rw [List.pairwise_map]
          exact (pairwise_sortB_scoreEntry _).sublist (pySlice_sublist _ _)
        · simp only [hi, Bool.false_eq_true, if_false]
          refine pairwise_all_eq MatchResult.score 1 _ ?_
          intro r hr
          have h2 := mem_dedupByNoc r _ _ (mem_pySlice hr)
          obtain ⟨e2, _, rfl⟩ := List.mem_map.mp h2
          rfl
  · by_cases he : env.entries.isEmpty = true
    · rw [matchQuery_empty_eq env q kq he] at hq
      injection hq with hq
      rw [← hq]
      exact List.Pairwise.nil
    · have he' : env.entries.isEmpty = false := by
        cases hb : env.entries.isEmpty with
        | false => rfl
        | true => exact absurd hb he
      cases hemb : env.embed q with
      | error err =>
        rw [matchQuery_error_eq env q kq err he' hemb] at hq
        exact absurd hq (by simp)
      | ok qvec =>
        cases hidx : env.dutyIndex with
        | none =>
          rw [matchQuery_brute_eq env q kq qvec he' hemb hidx] at hq
          injection hq with hq
          rw [← hq]
          rw [List.pairwise_map]
          refine ((argsortDesc_pairwise _).sublist (List.take_sublist _ _)).imp ?_
          intro i j h
          exact h
        | some stored =>
          rw [matchQuery_faiss_eq env q kq qvec stored he' hemb hidx] at hq
          injection hq with hq
          rw [← hq]
          rw [List.pairwise_map]
          refine (faissIPSearch_pairwise stored _ _).imp ?_
          intro a b h
          exact h

/-- C5 witness: the amended theorem applied to the one-entry environment,
where match_query concretely succeeds. -/
theorem match_results_sorted_witness :
    matchQuery envW ("x") (some 5) = Except.ok [mkQResult entW 1] ∧
    ((matchByTitle envW ("x") 5).Pairwise
      (fun a b : MatchResult => b.score ≤ a.score) ∧
    ([mkQResult entW 1]).Pairwise (fun a b : QueryResult => b.score ≤ a.score)) :=
  ⟨by with_unfolding_all decide,
    match_results_sorted envW ("x") 5 (some 5) [mkQResult entW 1]
      (by with_unfolding_all decide)⟩

/-! ### Claim C4: backend equivalence -/

theorem sortB_leIdx_eq_leSnd (scores : List ℚ)
    (hdist : scores.Pairwise (fun a b => a ≠ b)) :
    sortB leIdx (enumFrom 0 scores) = sortB leSnd (enumFrom 0 scores) := by
  refine sortB_congr leIdx leSnd ?_ _ (pairwise_enumFrom scores 0 hdist)
  intro p q hne
  unfold leIdx leSnd
  refine decide_eq_decide.mpr ?_
  constructor
  · rintro (h | ⟨h, _⟩)
    · exact h
    · exact absurd h hne
  · exact Or.inl

theorem faissIPSearch_eq_argsort (stored : List (List ℚ)) (qn : List ℚ) (k : Nat)
    (hdist : (stored.map (fun v => dotQ v qn)).Pairwise (fun a b => a ≠ b)) :
    faissIPSearch stored qn k =
      ((argsortDesc (stored.map (fun v => dotQ v qn))).take k).map
        (fun i => ((stored.map (fun v => dotQ v qn)).getD i 0, i)) := by
  unfold faissIPSearch argsortDesc
  rw [sortB_leIdx_eq_leSnd _ hdist, ← List.map_take, List.map_map]
  refine List.map_congr_left ?_
  intro p hp
  have hmem : p ∈ sortB leSnd (enumFrom 0 (stored.map (fun v => dotQ v qn))) :=
    (List.take_sublist _ _).mem hp
  have hg := scores_getD_of_mem_sortB leSnd _ p hmem
  show (p.2, p.1) = ((stored.map (fun v => dotQ v qn)).getD p.1 0, p.1)
  rw [hg]

/-- C4: on one taxonomy snapshot — the duty FAISS index holding exactly the
L2-normalized saved embeddings — and for a fixed query vector whose cosine
scores against the entries are pairwise distinct, match_query through the
indexed backend returns the same results in the same order as match_query
through the brute-force cosine backend.  Stated over exact rationals with
the square root both backends share as a model parameter, which is the
rational form of `equal within floating-point tolerance`; the distinctness
hypothesis excludes exact ties, whose order neither backend specifies. -/
theorem matchQuery_backends_agree (env : Env) (q : String) (topK : Option Nat)
    (qvec : List ℚ)
    (hemb : env.embed q = Except.ok qvec)
    (hsnap : env.dutyIndex = some (env.savedEmbeddings.map (unitize env.sqrt)))
    (hdist : ((env.savedEmbeddings.map (unitize env.sqrt)).map
      (fun v => dotQ v (unitize env.sqrt qvec))).Pairwise (fun a b => a ≠ b)) :
    matchQuery env q topK = matchQuery { env with dutyIndex := none } q topK := by
  by_cases he : env.entries.isEmpty = true
  · rw [matchQuery_empty_eq env q topK he,
      matchQuery_empty_eq { env with dutyIndex := none } q topK he]
  · have he' : env.entries.isEmpty = false := by
      cases hb : env.entries.isEmpty with
      | false => rfl
      | true => exact absurd hb he
    rw [matchQuery_faiss_eq env q topK qvec _ he' hemb hsnap,
      matchQuery_brute_eq { env with dutyIndex := none } q topK qvec he' hemb rfl]
    congr 1
    rw [faissIPSearch_eq_argsort _ _ _ hdist, List.map_map]
    rfl

/-- C4 witness: a snapshot of two unit duty vectors with distinct cosine
scores against the query embedding; both backends agree. -/
theorem matchQuery_backends_agree_witness :
    (envSnap.embed ("build things") = Except.ok [2, 1] ∧
      envSnap.dutyIndex = some (envSnap.savedEmbeddings.map (unitize envSnap.sqrt)) ∧
      ((envSnap.savedEmbeddings.map (unitize envSnap.sqrt)).map
        (fun v => dotQ v (unitize envSnap.sqrt [2, 1]))).Pairwise (fun a b => a ≠ b)) ∧
    matchQuery envSnap ("build things") (some 2) =
      matchQuery { envSnap with dutyIndex := none } ("build things") (some 2) :=
  ⟨⟨rfl, by with_unfolding_all decide, by with_unfolding_all decide⟩,
    matchQuery_backends_agree envSnap ("build things") (some 2) [2, 1] rfl
      (by with_unfolding_all decide) (by with_unfolding_all decide)⟩

end IndCad
